import Mathlib

/-!
Verification of the wordle-ai suggestion engine.

Shallow embedding of the engine core shared by the TypeScript worker code
(`src/workers/wordleUtils.ts`, `src/workers/strategies/*.ts`,
`src/workers/utils/parallelGuessScoring.ts`) and the Go backend
(`backend/strategies/*.go`, `backend/models/models.go`,
`backend/handlers/suggest.go`).  Both implementations use the same
algorithms; the embedding follows the shared structure and notes the few
places where they differ.

Words are embedded as `List Char` (the Go `Word` is a `[5]rune`; the
TypeScript code indexes 5-character strings).  The per-letter counters
(`Map<string, number>` in TS, `map[rune]int` in Go) are embedded as total
functions `Char → Int` with default value 0, exactly the map semantics both
languages give.  Loops over positions 0..4 are embedded as structural
recursion over the lists, which coincides with the source loops on
5-letter inputs (and is defined totally on all lists).
-/

namespace Wordle

/-- Letter feedback color (`'gray' | 'yellow' | 'green'` in TS,
`GRAY | YELLOW | GREEN` in Go). -/
inductive LetterColor where
  | gray : LetterColor
  | yellow : LetterColor
  | green : LetterColor
deriving DecidableEq, Repr

/-- A word: sequence of characters (5 in all real inputs). -/
abbrev Word := List Char

/-- A guess together with the feedback the user painted for it
(TS `GuessEntry {word, feedback.colors}`, Go `GuessEntry {Guess, Feedback.Colors}`). -/
structure GuessEntry where
  word : Word
  feedback : List LetterColor
deriving DecidableEq, Repr

/-- Game state: the history of guess/feedback pairs. -/
structure GameState where
  history : List GuessEntry
deriving DecidableEq, Repr

/-- Increment a letter counter (`m.set(c, (m.get(c) || 0) + 1)`). -/
def bump (m : Char → Int) (c : Char) : Char → Int :=
  fun d => if d = c then m d + 1 else m d

/-- Decrement a letter counter (`m.set(c, m.get(c) - 1)`). -/
def drop1 (m : Char → Int) (c : Char) : Char → Int :=
  fun d => if d = c then m d - 1 else m d

/-- Count available letters of the answer
(`for (const ch of answer) answerLetters.set(ch, ... + 1)`). -/
def buildCounts (w : Word) : Char → Int :=
  w.foldl bump (fun _ => 0)

/-- First pass of `getFeedback`: mark greens and remove them from the
available letters.  Returns the partially filled feedback (non-green
positions still hold the initial `gray` placeholder) and the updated
counter. -/
def firstPass : Word → Word → (Char → Int) → List LetterColor × (Char → Int)
  | a :: as, g :: gs, m =>
    if a = g then
      let r := firstPass as gs (drop1 m a)
      (LetterColor.green :: r.1, r.2)
    else
      let r := firstPass as gs m
      (LetterColor.gray :: r.1, r.2)
  | _, _, m => ([], m)

/-- Second pass of `getFeedback`: skip greens; mark yellow while the
guessed letter is still available, gray otherwise. -/
def secondPass : List LetterColor → Word → (Char → Int) → List LetterColor
  | f :: fs, g :: gs, m =>
    match f with
    | LetterColor.green => LetterColor.green :: secondPass fs gs m
    | _ =>
      if m g > 0 then LetterColor.yellow :: secondPass fs gs (drop1 m g)
      else LetterColor.gray :: secondPass fs gs m
  | _, _, _ => []

/-- Wordle feedback of `guess` scored against `answer`
(TS `getFeedback` in `wordleUtils.ts`, Go `GetFeedback` in
`backend/strategies/util` package; both are the identical two-pass
algorithm). -/
def getFeedback (answer guess : Word) : List LetterColor :=
  let m := buildCounts answer
  let r := firstPass answer guess m
  secondPass r.1 guess r.2

/-- Count occurrences of a letter in a word (`countLetterInWord`). -/
def countLetterInWord (word : Word) (letter : Char) : Nat :=
  word.count letter

/-- Minimum required counts: for each letter, the number of green or
yellow positions of that letter in the guess (`minRequiredCounts`). -/
def minRequired (guess : Word) (fb : List LetterColor) : Char → Int :=
  (guess.zip fb).foldl
    (fun m p =>
      if p.2 = LetterColor.green ∨ p.2 = LetterColor.yellow then bump m p.1 else m)
    (fun _ => 0)

/-- Green check of `matchesFeedback`: every green position must match
exactly. -/
def greensOk : Word → Word → List LetterColor → Bool
  | w :: ws, g :: gs, f :: fs =>
    (if f = LetterColor.green then w = g else true) && greensOk ws gs fs
  | _, _, _ => true

/-- Yellow check of `matchesFeedback`: a yellow letter must not sit at the
guessed position. -/
def yellowsOk : Word → Word → List LetterColor → Bool
  | w :: ws, g :: gs, f :: fs =>
    (if f = LetterColor.yellow then w ≠ g else true) && yellowsOk ws gs fs
  | _, _, _ => true

/-- Minimum-count check of `matchesFeedback`: for every colored letter the
word must contain at least `minRequired` copies.  The source iterates over
the entries of the `minRequiredCounts` map; iterating over the colored
positions checks exactly the same inequalities. -/
def minCountsOk (word guess : Word) (fb : List LetterColor) : Bool :=
  (guess.zip fb).all fun p =>
    if p.2 = LetterColor.green ∨ p.2 = LetterColor.yellow then
      decide (minRequired guess fb p.1 ≤ (countLetterInWord word p.1 : Int))
    else true

/-- Gray check of `matchesFeedback`: a gray letter bounds the total count
of that letter in the word by its `minRequired` count. -/
def graysOk (word guess : Word) (fb : List LetterColor) : Bool :=
  (guess.zip fb).all fun p =>
    if p.2 = LetterColor.gray then
      decide ((countLetterInWord word p.1 : Int) ≤ minRequired guess fb p.1)
    else true

/-- Count-based consistency test of a word against one history entry
(TS/Go `matchesFeedback`; the four early-return checks of the source are
the four conjuncts). -/
def matchesFeedback (word : Word) (entry : GuessEntry) : Bool :=
  greensOk word entry.word entry.feedback &&
  yellowsOk word entry.word entry.feedback &&
  minCountsOk word entry.word entry.feedback &&
  graysOk word entry.word entry.feedback

/-- A word is consistent with the whole history (`matchesGameState`, and
the inner loop of the TS `filterCandidateWords`). -/
def matchesGameState (word : Word) (gameState : GameState) : Bool :=
  gameState.history.all fun entry => matchesFeedback word entry

/-- Keep the words consistent with every history entry
(TS/Go `filterCandidateWords`). -/
def filterCandidateWords (gameState : GameState) (wordList : List Word) : List Word :=
  wordList.filter fun word => matchesGameState word gameState

/-!
The specification's two-pass oracle, written with an explicit multiset of
the answer's letters, exactly as §4.1 of the spec words it.  It is used
only to state the refinement claim C1 against `getFeedback`.
-/
/-- Spec first pass: mark position i GREEN exactly when the letters agree,
consuming that letter from the multiset of the answer's letters. -/
def specFirstPass : Word → Word → Multiset Char → List LetterColor × Multiset Char
  | a :: as, g :: gs, s =>
    if a = g then
      let r := specFirstPass as gs (s.erase a)
      (LetterColor.green :: r.1, r.2)
    else
      let r := specFirstPass as gs s
      (LetterColor.gray :: r.1, r.2)
  | _, _, s => ([], s)

/-- Spec second pass: scanning non-GREEN positions left to right, mark
YELLOW when the remaining multiset count of the guessed letter is
positive (consuming one) and GRAY otherwise. -/
def specSecondPass : List LetterColor → Word → Multiset Char → List LetterColor
  | f :: fs, g :: gs, s =>
    match f with
    | LetterColor.green => LetterColor.green :: specSecondPass fs gs s
    | _ =>
      if 0 < s.count g then LetterColor.yellow :: specSecondPass fs gs (s.erase g)
      else LetterColor.gray :: specSecondPass fs gs s
  | _, _, _ => []

/-- The spec's two-pass feedback algorithm (§4.1). -/
def specOracle (answer guess : Word) : List LetterColor :=
  let r := specFirstPass answer guess (answer : Multiset Char)
  specSecondPass r.1 guess r.2

/-!
Claim C2: relating the count-based `matchesFeedback` test to the oracle.
The definitions below are proof-side counting helpers (they are not part
of the embedded program); all counts pair a guess letter with the
feedback color at the same position.
-/
/-- Positions where answer and guess agree and carry letter `c`. -/
def nGreen : Word → Word → Char → Nat
  | a :: as, b :: bs, c => (if a = b ∧ b = c then 1 else 0) + nGreen as bs c
  | _, _, _ => 0

/-- Positions of the guess with letter `c` whose feedback is `col`. -/
def outCount (col : LetterColor) : Word → List LetterColor → Char → Nat
  | b :: bs, f :: fs, c => (if f = col ∧ b = c then 1 else 0) + outCount col bs fs c
  | _, _, _ => 0

/-- Positions of the guess with letter `c` whose feedback is not green. -/
def nonGreenCount : Word → List LetterColor → Char → Nat
  | b :: bs, f :: fs, c =>
    (if f ≠ LetterColor.green ∧ b = c then 1 else 0) + nonGreenCount bs fs c
  | _, _, _ => 0

/-- Positions of the guess with letter `c` whose feedback is colored
(green or yellow). -/
def coloredCount : Word → List LetterColor → Char → Nat
  | b :: bs, f :: fs, c =>
    (if (f = LetterColor.green ∨ f = LetterColor.yellow) ∧ b = c then 1 else 0) +
      coloredCount bs fs c
  | _, _, _ => 0

/-- The feedback skeleton the first pass produces: green where the words
agree, the gray placeholder elsewhere. -/
def marks (w g : Word) : List LetterColor :=
  List.zipWith (fun a b => if a = b then LetterColor.green else LetterColor.gray) w g

/-!
Scoring pipeline.  The Go scorer keys partition buckets by
`feedbackToString` (one character per color); the TS scorer joins the
color names (`feedback.join('')`).  Scores are IEEE doubles in both
sources; the embedding models them as exact reals.  A suggestion's score
is carried symbolically as `ScoreVal` (the sentinel, or the bucket sizes
together with the number of surviving answers, which determine the
information gain exactly); `ScoreVal.toReal` is the numeric reading.
The sort comparator `b.score - a.score` (descending, stable in JS) is
embedded as a stable insertion sort under `scoredLe`, which is proved
below (`wBase_le_iff_score`) to decide exactly the comparison of the
real-valued scores.
-/
/-- Go `feedbackToString`: one character per color. -/
def colorChar : LetterColor → Char
  | LetterColor.gray => 'B'
  | LetterColor.yellow => 'Y'
  | LetterColor.green => 'G'

/-- Go bucket key of a feedback pattern. -/
def feedbackKey (f : List LetterColor) : List Char :=
  f.map colorChar

/-- TS color literal, as the character list of `'gray' | 'yellow' | 'green'`. -/
def colorName : LetterColor → List Char
  | LetterColor.gray => ['g', 'r', 'a', 'y']
  | LetterColor.yellow => ['y', 'e', 'l', 'l', 'o', 'w']
  | LetterColor.green => ['g', 'r', 'e', 'e', 'n']

/-- TS bucket key: `feedback.join('')`. -/
def feedbackKeyTS (f : List LetterColor) : List Char :=
  (f.map colorName).flatten

/-- The spec's base-3 packing of a feedback pattern. -/
def colorCode : LetterColor → Nat
  | LetterColor.gray => 0
  | LetterColor.yellow => 1
  | LetterColor.green => 2

/-- Base-3 integer representation of a feedback pattern (glossary and
§4.4 Bucketization of the spec). -/
def feedbackBase3 : List LetterColor → Nat
  | [] => 0
  | c :: rest => colorCode c + 3 * feedbackBase3 rest

/-- Multiplicity of every distinct element of a list, in order of the
distinct elements (the values of a counting map built over the list). -/
def tally {α : Type} [DecidableEq α] (l : List α) : List Nat :=
  l.dedup.map fun k => l.count k

/-- Bucket sizes of the partition of `answers` by the feedback each one
gives to `guess` (the values of the scorer's partition map). -/
def bucketCounts (guess : Word) (answers : List Word) : List Nat :=
  tally (answers.map fun a => feedbackKey (getFeedback a guess))

/-- Weight `∏ c^c` over the bucket sizes.  For a fixed number `N` of
surviving answers the information gain is
`log2 N - log2 (wBase counts) / N`, so comparing weights is exactly
comparing scores (see `wBase_le_iff_score`). -/
def wBase (counts : List Nat) : Nat :=
  (counts.map fun c => c ^ c).prod

/-- Symbolic score of a suggestion: the forced-win sentinel
(`Number.MAX_VALUE` / `math.MaxFloat64`), or the information gain
determined by the bucket sizes and the surviving-answer count. -/
inductive ScoreVal where
  | sentinel : ScoreVal
  | gain (counts : List Nat) (total : Nat) : ScoreVal
deriving DecidableEq, Repr

/-- Comparator used for ranking: `x` may come before `y` when
`score x ≥ score y`, i.e. when `wBase x.2 ≤ wBase y.2`. -/
def scoredLe (x y : Word × List Nat) : Prop :=
  wBase x.2 ≤ wBase y.2

instance : DecidableRel scoredLe := fun x y => Nat.decLe (wBase x.2) (wBase y.2)

instance : IsTotal (Word × List Nat) scoredLe :=
  ⟨fun x y => Nat.le_total (wBase x.2) (wBase y.2)⟩

instance : IsTrans (Word × List Nat) scoredLe :=
  ⟨fun _ _ _ hxy hyz => Nat.le_trans hxy hyz⟩

/-- Score every guess against the surviving answers and sort by score
descending (TS `ParallelGuessScorer.scoreGuesses`: the chunks are scored
in order and concatenated back in order, so chunking is the identity on
the score list; the JS `sort` is stable, embedded as a stable insertion
sort). -/
def rankGuesses (guesses answers : List Word) : List (Word × ScoreVal) :=
  (List.insertionSort scoredLe (guesses.map fun g => (g, bucketCounts g answers))).map
    fun p => (p.1, ScoreVal.gain p.2 answers.length)

/-- Result of one solve: ranked suggestions and the surviving-answer
count (TS `SolveResult`). -/
structure SolveResult where
  suggestions : List (Word × ScoreVal)
  remainingAnswers : Nat
deriving DecidableEq, Repr

/-- TS `AllGuessesStrategy.solve` (parallel scorer + `slice(0, 5)`) and
`InformationGainStrategy.solve` (sequential scorer + `slice(0, 5)`),
which compute the same function. -/
def solveAllGuesses (gameState : GameState) (answersList guessesList : List Word) :
    SolveResult :=
  let possibleAnswers := filterCandidateWords gameState answersList
  if possibleAnswers.length = 0 then
    { suggestions := [], remainingAnswers := 0 }
  else if possibleAnswers.length = 1 then
    { suggestions := [(possibleAnswers.headI, ScoreVal.sentinel)], remainingAnswers := 1 }
  else
    { suggestions := (rankGuesses guessesList possibleAnswers).take 5,
      remainingAnswers := possibleAnswers.length }

/-- TS sequential `StrictGuessesStrategy.solve`: additionally filters the
guess list through the history and truncates to the top 5. -/
def solveStrictTop5 (gameState : GameState) (answersList guessesList : List Word) :
    SolveResult :=
  let possibleAnswers := filterCandidateWords gameState answersList
  if possibleAnswers.length = 0 then
    { suggestions := [], remainingAnswers := 0 }
  else if possibleAnswers.length = 1 then
    { suggestions := [(possibleAnswers.headI, ScoreVal.sentinel)], remainingAnswers := 1 }
  else
    let validGuesses := filterCandidateWords gameState guessesList
    if validGuesses.length = 0 then
      { suggestions := [], remainingAnswers := possibleAnswers.length }
    else
      { suggestions := (rankGuesses validGuesses possibleAnswers).take 5,
        remainingAnswers := possibleAnswers.length }

/-- TS parallel `StrictGuessesStrategy.solve`
(`solveComputation.worker.ts`): identical to `solveStrictTop5` except
that the scored list is returned whole (`const suggestions = allScores`,
with no `slice(0, 5)`). -/
def solveStrictParallel (gameState : GameState) (answersList guessesList : List Word) :
    SolveResult :=
  let possibleAnswers := filterCandidateWords gameState answersList
  if possibleAnswers.length = 0 then
    { suggestions := [], remainingAnswers := 0 }
  else if possibleAnswers.length = 1 then
    { suggestions := [(possibleAnswers.headI, ScoreVal.sentinel)], remainingAnswers := 1 }
  else
    let validGuesses := filterCandidateWords gameState guessesList
    if validGuesses.length = 0 then
      { suggestions := [], remainingAnswers := possibleAnswers.length }
    else
      { suggestions := rankGuesses validGuesses possibleAnswers,
        remainingAnswers := possibleAnswers.length }

/-- One callback invocation of the Go `SuggestionCallback`
(suggestions, depth, remainingAnswers). -/
structure GoEvent where
  suggestions : List (Word × ScoreVal)
  depth : Nat
  remaining : Nat
deriving DecidableEq, Repr

/-- Error value a Go strategy can return (`ctx.Err()` after
cancellation). -/
inductive GoErr where
  | canceled : GoErr
deriving DecidableEq, Repr

/-- Go `evaluateGuesses`: forced-win sentinel when a single answer
survives, otherwise rank the evaluation set (capped at 5000 guesses for
depth > 1) and keep the top 5.  The Go source sorts with `sort.Slice`
(unstable, score-only comparator); the embedding fixes the stable order,
which does not affect any property proved about this function. -/
def goEvaluateGuesses (guesses possibleAnswers : List Word) (depth : Nat) :
    List (Word × ScoreVal) :=
  if possibleAnswers.length = 1 then
    [(possibleAnswers.headI, ScoreVal.sentinel)]
  else
    let evaluationSet :=
      if 1 < depth ∧ 5000 < guesses.length then guesses.take 5000 else guesses
    (rankGuesses evaluationSet possibleAnswers).take 5

/-- Go `InformationGainStrategy.Solve`: emits one callback per depth of
the iterative deepening loop; with no surviving answers it emits a single
empty callback (`callback([], 1, 0)`) and returns `nil` before reaching
the cancellation check; when the context is cancelled it returns
`ctx.Err()` at the top of the loop. -/
def goSolve (gameState : GameState) (answers guesses : List Word) (maxDepth : Nat)
    (cancelled : Bool) : List GoEvent × Option GoErr :=
  let possibleAnswers := filterCandidateWords gameState answers
  if possibleAnswers.length = 0 then
    ([{ suggestions := [], depth := 1, remaining := 0 }], none)
  else if cancelled then
    ([], some GoErr.canceled)
  else
    ((List.range maxDepth).map fun d =>
      { suggestions := goEvaluateGuesses guesses possibleAnswers (d + 1),
        depth := d + 1,
        remaining := possibleAnswers.length }, none)

/-!
Real-valued reading of the scores.  The sources operate on IEEE doubles;
the embedding interprets the arithmetic exactly over `ℝ`.
-/
/-- The sentinel score: the largest finite double,
`Number.MAX_VALUE = math.MaxFloat64 = (2^53 - 1) * 2^971`. -/
noncomputable def maxFloat : ℝ := ((2 : ℝ) ^ 53 - 1) * 2 ^ 971

/-- TS/Go `calculateEntropy`: `0` for `count ≤ 1`, otherwise
`-count * p * log2 p` with `p = 1 / count`. -/
noncomputable def calcEntropy (count : Nat) : ℝ :=
  if count ≤ 1 then 0
  else -(count : ℝ) * (1 / count) * Real.logb 2 (1 / count)

/-- TS/Go `calculateInformationGain`, as a function of the bucket sizes
and the surviving-answer count: current entropy minus the expected
entropy over the feedback partition. -/
noncomputable def scoreOfCounts (counts : List Nat) (total : Nat) : ℝ :=
  calcEntropy total -
    (counts.map fun (c : Nat) =>
      if 0 < c then ((c : ℝ) / total) * calcEntropy c else 0).sum

/-- Numeric value of a symbolic score. -/
noncomputable def ScoreVal.toReal : ScoreVal → ℝ
  | ScoreVal.sentinel => maxFloat
  | ScoreVal.gain counts total => scoreOfCounts counts total

/-- Exact information gain of one guess against the surviving answers
(the value the sources compute in doubles). -/
noncomputable def igScore (g : Word) (answers : List Word) : ℝ :=
  scoreOfCounts (bucketCounts g answers) answers.length

/-!
SSE handler (`backend/handlers/suggest.go`, `SuggestStream`).  After the
`stream-created` frame the handler forwards one `suggestions` frame per
strategy callback and then always writes a single `stream-completed`
frame whose `status` field is the string literal `"completed"`.  When the
stream is cancelled, `strategy.Solve` returns `ctx.Err()`, the handler
merely logs it and falls through to the same completion frame;
cancellation therefore only shortens the list of suggestion batches,
which the parameter `batches` captures, and the `cancelled` flag has no
effect on the emitted frames.
-/
/-- One SSE frame of the suggest stream. -/
inductive SSEEvent where
  | streamCreated (streamId : String) : SSEEvent
  | suggestions (streamId : String) (payload : List (Word × ScoreVal))
      (depth : Nat) (remaining : Nat) : SSEEvent
  | streamCompleted (streamId : String) (status : String) : SSEEvent
deriving DecidableEq, Repr

/-- Recognizes the terminating sentinel frame. -/
def isStreamCompleted : SSEEvent → Bool
  | SSEEvent.streamCompleted _ _ => true
  | _ => false

/-- Recognizes a sentinel frame carrying the given status. -/
def completedWithStatus (status : String) : SSEEvent → Bool
  | SSEEvent.streamCompleted _ s => decide (s = status)
  | _ => false

/-- Frames written by `SuggestStream` for one request, given the
suggestion batches the strategy managed to emit and whether the request
was cancelled. -/
def suggestStreamEvents (streamId : String)
    (batches : List (List (Word × ScoreVal) × Nat × Nat)) (cancelled : Bool) :
    List SSEEvent :=
  [SSEEvent.streamCreated streamId] ++
    (batches.map fun b => SSEEvent.suggestions streamId b.1 b.2.1 b.2.2) ++
    [SSEEvent.streamCompleted streamId
      (if cancelled then "completed" else "completed")]

/-!
Word construction (`backend/models/models.go`, `StringToWord` and
`GuessEntry.UnmarshalJSON`).  `StringToWord` panics on input whose
normalized rune length is not 5; the panic is modelled as the `error`
branch of `Except` carrying the panic message.  No `InvalidWord` error
value exists anywhere in the repository; `TestWordConversionPanic`
asserts the panic. -/
/-- A Go runtime panic with its message. -/
structure GoPanic where
  message : String
deriving DecidableEq, Repr

/-- ASCII uppercasing of one character (the effect of Go
`strings.ToUpper` on the A-Z/a-z alphabet the word lists use). -/
def upperChar (c : Char) : Char :=
  if 'a' ≤ c ∧ c ≤ 'z' then Char.ofNat (c.toNat - 32) else c

/-- Go `StringToWord`: uppercases, converts to runes, panics unless the
length is exactly 5. -/
def StringToWord (s : String) : Except GoPanic Word :=
  let runes := s.toList.map upperChar
  if runes.length ≠ 5 then
    Except.error ⟨"Word must be exactly 5 characters, got " ++ toString runes.length⟩
  else
    Except.ok runes

/-- Go `GuessEntry.UnmarshalJSON` after the JSON layer has produced the
`word` field: calls `StringToWord`, whose panic propagates to the
caller. -/
def unmarshalGuessEntry (wordField : String) (fb : List LetterColor) :
    Except GoPanic GuessEntry :=
  match StringToWord wordField with
  | Except.error p => Except.error p
  | Except.ok w => Except.ok ⟨w, fb⟩

/-- True on the panic branch. -/
def isPanic {α : Type} : Except GoPanic α → Bool
  | Except.error _ => true
  | Except.ok _ => false

example : getFeedback "ERASE".toList "SPEED".toList =
    [LetterColor.yellow, LetterColor.gray, LetterColor.yellow,
     LetterColor.yellow, LetterColor.gray] := by decide

example : specOracle "ERASE".toList "SPEED".toList =
    [LetterColor.yellow, LetterColor.gray, LetterColor.yellow,
     LetterColor.yellow, LetterColor.gray] := by decide

example : getFeedback "SPEED".toList "EEEEE".toList =
    [LetterColor.gray, LetterColor.gray, LetterColor.green,
     LetterColor.green, LetterColor.gray] := by decide

/-!
Claim C1: the implementation's counter map agrees with the spec's
multiset of remaining letters throughout both passes.
-/
theorem foldl_bump_apply (w : Word) :
    ∀ (m : Char → Int) (c : Char), (w.foldl bump m) c = m c + w.count c := by
  induction w with
  | nil => intro m c; simp
  | cons a as ih =>
    intro m c
    rw [List.foldl_cons, ih]
    by_cases h : c = a
    · subst h
      simp [bump, List.count_cons_self]
      ring
    · simp [bump, h, List.count_cons_of_ne h]

theorem buildCounts_apply (w : Word) (c : Char) :
    buildCounts w c = w.count c := by
  rw [buildCounts, foldl_bump_apply]
  simp

theorem firstPass_agrees :
    ∀ (as gs : Word) (m : Char → Int) (s : Multiset Char),
      (∀ c, m c = (s.count c : Int)) → (as : Multiset Char) ≤ s →
      (firstPass as gs m).1 = (specFirstPass as gs s).1 ∧
      ∀ c, (firstPass as gs m).2 c = ((specFirstPass as gs s).2.count c : Int) := by
  intro as
  induction as with
  | nil =>
    intro gs m s hinv _
    cases gs <;> exact ⟨rfl, hinv⟩
  | cons a as ih =>
    intro gs m s hinv hle
    cases gs with
    | nil => exact ⟨rfl, hinv⟩
    | cons g gs =>
      have hmem : a ∈ s := by
        have : a ∈ (↑(a :: as) : Multiset Char) := by simp
        exact Multiset.mem_of_le hle this
      have hcount : 1 ≤ s.count a := Multiset.one_le_count_iff_mem.mpr hmem
      by_cases hag : a = g
      · subst hag
        have hinv2 : ∀ c, drop1 m a c = ((s.erase a).count c : Int) := by
          intro c
          by_cases hca : c = a
          · subst hca
            simp [drop1, hinv c, Multiset.count_erase_self]
            omega
          · simp [drop1, hca, hinv c, Multiset.count_erase_of_ne hca]
        have hle2 : (as : Multiset Char) ≤ s.erase a := by
          have h1 : ((a :: as : List Char) : Multiset Char).erase a = (as : Multiset Char) := by
            rw [← Multiset.cons_coe, Multiset.erase_cons_head]
          calc (as : Multiset Char) = ((a :: as : List Char) : Multiset Char).erase a := h1.symm
            _ ≤ s.erase a := Multiset.erase_le_erase a hle
        have hrec := ih gs (drop1 m a) (s.erase a) hinv2 hle2
        simp only [firstPass, specFirstPass, if_true, eq_self_iff_true]
        exact ⟨by rw [hrec.1], hrec.2⟩
      · have hle2 : (as : Multiset Char) ≤ s := by
          have h1 : (as : Multiset Char) ≤ ((a :: as : List Char) : Multiset Char) := by
            rw [← Multiset.cons_coe]
            exact Multiset.le_cons_self _ _
          exact le_trans h1 hle
        have hrec := ih gs m s hinv hle2
        simp only [firstPass, specFirstPass, hag, if_false]
        exact ⟨by rw [hrec.1], hrec.2⟩

theorem secondPass_agrees :
    ∀ (fs : List LetterColor) (gs : Word) (m : Char → Int) (s : Multiset Char),
      (∀ c, m c = (s.count c : Int)) →
      secondPass fs gs m = specSecondPass fs gs s := by
  intro fs
  induction fs with
  | nil => intro gs m s _; cases gs <;> rfl
  | cons f fs ih =>
    intro gs m s hinv
    cases gs with
    | nil => rfl
    | cons g gs =>
      have hcond : (m g > 0) ↔ (0 < s.count g) := by
        rw [hinv g]
        exact_mod_cast Iff.rfl
      cases f with
      | green =>
        simp only [secondPass, specSecondPass]
        exact congrArg _ (ih gs m s hinv)
      | yellow =>
        simp only [secondPass, specSecondPass]
        by_cases hpos : m g > 0
        · have hpos2 : 0 < s.count g := hcond.mp hpos
          rw [if_pos hpos, if_pos hpos2]
          have hinv2 : ∀ c, drop1 m g c = ((s.erase g).count c : Int) := by
            intro c
            by_cases hcg : c = g
            · subst hcg
              simp [drop1, hinv c, Multiset.count_erase_self]
              omega
            · simp [drop1, hcg, hinv c, Multiset.count_erase_of_ne hcg]
          exact congrArg _ (ih gs (drop1 m g) (s.erase g) hinv2)
        · have hpos2 : ¬ 0 < s.count g := fun h => hpos (hcond.mpr h)
          rw [if_neg hpos, if_neg hpos2]
          exact congrArg _ (ih gs m s hinv)
      | gray =>
        simp only [secondPass, specSecondPass]
        by_cases hpos : m g > 0
        · have hpos2 : 0 < s.count g := hcond.mp hpos
          rw [if_pos hpos, if_pos hpos2]
          have hinv2 : ∀ c, drop1 m g c = ((s.erase g).count c : Int) := by
            intro c
            by_cases hcg : c = g
            · subst hcg
              simp [drop1, hinv c, Multiset.count_erase_self]
              omega
            · simp [drop1, hcg, hinv c, Multiset.count_erase_of_ne hcg]
          exact congrArg _ (ih gs (drop1 m g) (s.erase g) hinv2)
        · have hpos2 : ¬ 0 < s.count g := fun h => hpos (hcond.mpr h)
          rw [if_neg hpos, if_neg hpos2]
          exact congrArg _ (ih gs m s hinv)

theorem getFeedback_eq_specOracle (answer guess : Word) :
    getFeedback answer guess = specOracle answer guess := by
  have hinv : ∀ c, buildCounts answer c = ((answer : Multiset Char).count c : Int) := by
    intro c
    rw [buildCounts_apply]
    simp
  have hfp := firstPass_agrees answer guess (buildCounts answer)
    (answer : Multiset Char) hinv le_rfl
  rw [getFeedback, specOracle, hfp.1]
  exact secondPass_agrees _ guess _ _ hfp.2

/-- Claim C1.  For every pair of words, `getFeedback` (TS
`wordleUtils.getFeedback`, Go `GetFeedback`) returns exactly the result of
the specification's two-pass algorithm (greens mark and consume letters
from the multiset of the answer's letters; the second pass scans non-green
positions left to right marking yellow while the remaining multiset count
is positive, gray otherwise); and on the spec's concrete scenario S1,
`getFeedback("ERASE", "SPEED") = [YELLOW, GRAY, YELLOW, YELLOW, GRAY]`. -/
theorem claim_C1_oracle_two_pass :
    (∀ answer guess : Word, getFeedback answer guess = specOracle answer guess) ∧
    getFeedback "ERASE".toList "SPEED".toList =
      [LetterColor.yellow, LetterColor.gray, LetterColor.yellow,
       LetterColor.yellow, LetterColor.gray] :=
  ⟨getFeedback_eq_specOracle, by decide⟩

theorem firstPass_fst (w : Word) :
    ∀ (g : Word) (m : Char → Int), (firstPass w g m).1 = marks w g := by
  induction w with
  | nil => intro g m; cases g <;> rfl
  | cons a as ih =>
    intro g m
    cases g with
    | nil => rfl
    | cons b bs =>
      by_cases hab : a = b
      · simp [firstPass, marks, hab, ih]
      · simp [firstPass, marks, hab, ih, List.zipWith]

theorem firstPass_snd (w : Word) :
    ∀ (g : Word) (m : Char → Int) (c : Char),
      (firstPass w g m).2 c = m c - nGreen w g c := by
  induction w with
  | nil => intro g m c; cases g <;> simp [firstPass, nGreen]
  | cons a as ih =>
    intro g m c
    cases g with
    | nil => simp [firstPass, nGreen]
    | cons b bs =>
      by_cases hab : a = b
      · subst hab
        by_cases hac : a = c
        · subst hac
          simp [firstPass, nGreen, ih, drop1]
          omega
        · have hca : ¬ c = a := fun h => hac h.symm
          simp [firstPass, nGreen, ih, drop1, hac, hca]
      · simp [firstPass, nGreen, hab, ih]

theorem nGreen_le_count (c : Char) :
    ∀ (w g : Word), nGreen w g c ≤ w.count c := by
  intro w
  induction w with
  | nil => intro g; cases g <;> simp [nGreen]
  | cons a as ih =>
    intro g
    cases g with
    | nil => simp [nGreen]
    | cons b bs =>
      have hrec := ih bs
      by_cases hab : a = b
      · subst hab
        by_cases hac : a = c
        · subst hac
          simp [nGreen, List.count_cons_self]
          omega
        · simp [nGreen, hac, List.count_cons_of_ne (fun h => hac h.symm)]
          omega
      · by_cases hac : c = a
        · subst hac
          simp [nGreen, hab, List.count_cons_self]
          omega
        · simp [nGreen, hab, List.count_cons_of_ne hac]
          omega

theorem secondPass_green (c : Char) :
    ∀ (fs : List LetterColor) (gs : Word) (m : Char → Int),
      outCount LetterColor.green gs (secondPass fs gs m) c =
        outCount LetterColor.green gs fs c := by
  intro fs
  induction fs with
  | nil => intro gs m; cases gs <;> simp [secondPass, outCount]
  | cons f fs ih =>
    intro gs m
    cases gs with
    | nil => simp [secondPass, outCount]
    | cons g gs =>
      cases f with
      | green => simp [secondPass, outCount, ih]
      | yellow =>
        by_cases hpos : m g > 0 <;>
          simp [secondPass, hpos, outCount, ih]
      | gray =>
        by_cases hpos : m g > 0 <;>
          simp [secondPass, hpos, outCount, ih]

theorem secondPass_yellow (c : Char) :
    ∀ (fs : List LetterColor) (gs : Word) (m : Char → Int), 0 ≤ m c →
      outCount LetterColor.yellow gs (secondPass fs gs m) c =
        min (m c).toNat (nonGreenCount gs fs c) := by
  intro fs
  induction fs with
  | nil =>
    intro gs m hm
    cases gs <;> simp [secondPass, outCount, nonGreenCount]
  | cons f fs ih =>
    intro gs m hm
    cases gs with
    | nil => simp [secondPass, outCount, nonGreenCount]
    | cons g gs =>
      cases f with
      | green =>
        simp [secondPass, outCount, nonGreenCount, ih gs m hm]
      | yellow =>
        by_cases hpos : m g > 0
        · by_cases hgc : g = c
          · subst hgc
            have hm2 : 0 ≤ drop1 m g g := by simp [drop1]; omega
            have := ih gs (drop1 m g) hm2
            simp only [drop1, if_pos rfl] at this
            simp [secondPass, hpos, outCount, nonGreenCount, this]
            omega
          · have hcg : ¬ c = g := fun h => hgc h.symm
            have hm2 : 0 ≤ drop1 m g c := by simp [drop1, hcg]; omega
            have := ih gs (drop1 m g) hm2
            simp only [drop1] at this
            rw [if_neg hcg] at this
            simp [secondPass, hpos, outCount, nonGreenCount, hgc, this]
        · by_cases hgc : g = c
          · subst hgc
            have hz : m g = 0 := by omega
            simp [secondPass, hpos, outCount, nonGreenCount, ih gs m hm, hz]
          · simp [secondPass, hpos, outCount, nonGreenCount, hgc, ih gs m hm]
      | gray =>
        by_cases hpos : m g > 0
        · by_cases hgc : g = c
          · subst hgc
            have hm2 : 0 ≤ drop1 m g g := by simp [drop1]; omega
            have := ih gs (drop1 m g) hm2
            simp only [drop1, if_pos rfl] at this
            simp [secondPass, hpos, outCount, nonGreenCount, this]
            omega
          · have hcg : ¬ c = g := fun h => hgc h.symm
            have hm2 : 0 ≤ drop1 m g c := by simp [drop1, hcg]; omega
            have := ih gs (drop1 m g) hm2
            simp only [drop1] at this
            rw [if_neg hcg] at this
            simp [secondPass, hpos, outCount, nonGreenCount, hgc, this]
        · by_cases hgc : g = c
          · subst hgc
            have hz : m g = 0 := by omega
            simp [secondPass, hpos, outCount, nonGreenCount, ih gs m hm, hz]
          · simp [secondPass, hpos, outCount, nonGreenCount, hgc, ih gs m hm]

theorem secondPass_split (c : Char) :
    ∀ (fs : List LetterColor) (gs : Word) (m : Char → Int),
      nonGreenCount gs fs c =
        outCount LetterColor.yellow gs (secondPass fs gs m) c +
          outCount LetterColor.gray gs (secondPass fs gs m) c := by
  intro fs
  induction fs with
  | nil =>
    intro gs m
    cases gs <;> simp [secondPass, outCount, nonGreenCount]
  | cons f fs ih =>
    intro gs m
    cases gs with
    | nil => simp [secondPass, outCount, nonGreenCount]
    | cons g gs =>
      cases f with
      | green =>
        have hih := ih gs m
        simp only [secondPass, outCount, nonGreenCount]
        simp
        omega
      | yellow =>
        by_cases hpos : m g > 0
        · have hsp : secondPass (LetterColor.yellow :: fs) (g :: gs) m =
              LetterColor.yellow :: secondPass fs gs (drop1 m g) := by
            simp [secondPass, hpos]
          have hih := ih gs (drop1 m g)
          rw [hsp]
          by_cases hgc : g = c
          · subst hgc
            simp [outCount, nonGreenCount]
            omega
          · simp [outCount, nonGreenCount, hgc]
            omega
        · have hsp : secondPass (LetterColor.yellow :: fs) (g :: gs) m =
              LetterColor.gray :: secondPass fs gs m := by
            simp [secondPass, hpos]
          have hih := ih gs m
          rw [hsp]
          by_cases hgc : g = c
          · subst hgc
            simp [outCount, nonGreenCount]
            omega
          · simp [outCount, nonGreenCount, hgc]
            omega
      | gray =>
        by_cases hpos : m g > 0
        · have hsp : secondPass (LetterColor.gray :: fs) (g :: gs) m =
              LetterColor.yellow :: secondPass fs gs (drop1 m g) := by
            simp [secondPass, hpos]
          have hih := ih gs (drop1 m g)
          rw [hsp]
          by_cases hgc : g = c
          · subst hgc
            simp [outCount, nonGreenCount]
            omega
          · simp [outCount, nonGreenCount, hgc]
            omega
        · have hsp : secondPass (LetterColor.gray :: fs) (g :: gs) m =
              LetterColor.gray :: secondPass fs gs m := by
            simp [secondPass, hpos]
          have hih := ih gs m
          rw [hsp]
          by_cases hgc : g = c
          · subst hgc
            simp [outCount, nonGreenCount]
            omega
          · simp [outCount, nonGreenCount, hgc]
            omega

theorem greensOk_oracle :
    ∀ (ws gs : Word) (m : Char → Int),
      greensOk ws gs (secondPass (marks ws gs) gs m) = true := by
  intro ws
  induction ws with
  | nil => intro gs m; cases gs <;> simp [marks, secondPass, greensOk]
  | cons w ws ih =>
    intro gs m
    cases gs with
    | nil => simp [marks, secondPass, greensOk]
    | cons g gs =>
      by_cases hwg : w = g
      · simp [marks, hwg, secondPass, greensOk]
        exact ih gs m
      · by_cases hpos : m g > 0
        · simp [marks, hwg, secondPass, hpos, greensOk]
          exact ih gs (drop1 m g)
        · simp [marks, hwg, secondPass, hpos, greensOk]
          exact ih gs m

theorem yellowsOk_oracle :
    ∀ (ws gs : Word) (m : Char → Int),
      yellowsOk ws gs (secondPass (marks ws gs) gs m) = true := by
  intro ws
  induction ws with
  | nil => intro gs m; cases gs <;> simp [marks, secondPass, yellowsOk]
  | cons w ws ih =>
    intro gs m
    cases gs with
    | nil => simp [marks, secondPass, yellowsOk]
    | cons g gs =>
      by_cases hwg : w = g
      · simp [marks, hwg, secondPass, yellowsOk]
        exact ih gs m
      · by_cases hpos : m g > 0
        · simp [marks, hwg, secondPass, hpos, yellowsOk, ih]
          exact ih gs (drop1 m g)
        · simp [marks, hwg, secondPass, hpos, yellowsOk]
          exact ih gs m

theorem coloredCount_split (c : Char) :
    ∀ (gs : Word) (fs : List LetterColor),
      coloredCount gs fs c =
        outCount LetterColor.green gs fs c + outCount LetterColor.yellow gs fs c := by
  intro gs
  induction gs with
  | nil => intro fs; cases fs <;> simp [coloredCount, outCount]
  | cons g gs ih =>
    intro fs
    cases fs with
    | nil => simp [coloredCount, outCount]
    | cons f fs =>
      have hrec := ih fs
      cases f <;> by_cases hgc : g = c <;>
        simp [coloredCount, outCount, hgc] <;> omega

theorem minRequired_foldl (g : Word) :
    ∀ (fb : List LetterColor) (m : Char → Int) (c : Char),
      ((g.zip fb).foldl
        (fun m p =>
          if p.2 = LetterColor.green ∨ p.2 = LetterColor.yellow then bump m p.1 else m)
        m) c = m c + coloredCount g fb c := by
  induction g with
  | nil => intro fb m c; simp [coloredCount]
  | cons b bs ih =>
    intro fb m c
    cases fb with
    | nil => simp [coloredCount]
    | cons f fs =>
      by_cases hcol : f = LetterColor.green ∨ f = LetterColor.yellow
      · by_cases hbc : b = c
        · subst hbc
          simp [hcol, coloredCount, ih, bump]
          omega
        · simp [hcol, coloredCount, ih, bump, hbc]
          have hcb : ¬ c = b := fun h => hbc h.symm
          simp [hcb]
      · simp [hcol, coloredCount, ih]

theorem minRequired_apply (g : Word) (fb : List LetterColor) (c : Char) :
    minRequired g fb c = coloredCount g fb c := by
  rw [minRequired, minRequired_foldl]
  simp

theorem outCount_green_marks (c : Char) :
    ∀ (w g : Word), outCount LetterColor.green g (marks w g) c = nGreen w g c := by
  intro w
  induction w with
  | nil => intro g; cases g <;> simp [marks, outCount, nGreen]
  | cons a as ih =>
    intro g
    cases g with
    | nil => simp [marks, outCount, nGreen]
    | cons b bs =>
      by_cases hab : a = b <;> simp [marks, hab, outCount, nGreen] <;> exact ih bs

theorem outCount_gray_pos :
    ∀ (gs : Word) (fs : List LetterColor) (b : Char),
      (b, LetterColor.gray) ∈ gs.zip fs → 0 < outCount LetterColor.gray gs fs b := by
  intro gs
  induction gs with
  | nil => intro fs b h; simp at h
  | cons g gs ih =>
    intro fs b h
    cases fs with
    | nil => simp at h
    | cons f fs =>
      simp only [List.zip_cons_cons, List.mem_cons] at h
      rcases h with h | h
      · have hg : g = b := congrArg Prod.fst h.symm
        have hf : f = LetterColor.gray := congrArg Prod.snd h.symm
        subst hg hf
        simp [outCount]
      · have := ih fs b h
        simp [outCount]
        omega

theorem matchesFeedback_of_oracle (w g : Word) :
    matchesFeedback w ⟨g, getFeedback w g⟩ = true := by
  have hfb : getFeedback w g =
      secondPass (marks w g) g (firstPass w g (buildCounts w)).2 := by
    rw [getFeedback, firstPass_fst]
  set m1 := (firstPass w g (buildCounts w)).2 with hm1def
  have hm1 : ∀ c, m1 c = (w.count c : Int) - nGreen w g c := by
    intro c
    rw [hm1def, firstPass_snd, buildCounts_apply]
  have hm1nn : ∀ c, 0 ≤ m1 c := by
    intro c
    rw [hm1 c]
    have := nGreen_le_count c w g
    omega
  have hcc : ∀ c, coloredCount g (getFeedback w g) c =
      nGreen w g c + min (m1 c).toNat (nonGreenCount g (marks w g) c) := by
    intro c
    rw [coloredCount_split, hfb, secondPass_green, outCount_green_marks,
      secondPass_yellow c (marks w g) g m1 (hm1nn c)]
  have key1 : ∀ c, coloredCount g (getFeedback w g) c ≤ w.count c := by
    intro c
    rw [hcc c]
    have h1 := hm1 c
    have h2 := nGreen_le_count c w g
    omega
  have key2 : ∀ c, 0 < outCount LetterColor.gray g (getFeedback w g) c →
      w.count c ≤ coloredCount g (getFeedback w g) c := by
    intro c hpos
    have hsplit := secondPass_split c (marks w g) g m1
    rw [← hfb] at hsplit
    have hyel := secondPass_yellow c (marks w g) g m1 (hm1nn c)
    rw [← hfb] at hyel
    rw [hcc c]
    have h1 := hm1 c
    have h2 := nGreen_le_count c w g
    omega
  have h1 : greensOk w g (getFeedback w g) = true := by
    rw [hfb]; exact greensOk_oracle w g m1
  have h2 : yellowsOk w g (getFeedback w g) = true := by
    rw [hfb]; exact yellowsOk_oracle w g m1
  have h3 : minCountsOk w g (getFeedback w g) = true := by
    rw [minCountsOk, List.all_eq_true]
    intro p hp
    by_cases hcol : p.2 = LetterColor.green ∨ p.2 = LetterColor.yellow
    · rw [if_pos hcol]
      have := key1 p.1
      rw [minRequired_apply]
      simp only [decide_eq_true_eq, countLetterInWord]
      exact_mod_cast this
    · rw [if_neg hcol]
  have h4 : graysOk w g (getFeedback w g) = true := by
    rw [graysOk, List.all_eq_true]
    intro p hp
    by_cases hgray : p.2 = LetterColor.gray
    · rw [if_pos hgray]
      have hmem : (p.1, LetterColor.gray) ∈ g.zip (getFeedback w g) := by
        have : p = (p.1, LetterColor.gray) := by
          rw [← hgray]
        rw [← this]
        exact hp
      have := key2 p.1 (outCount_gray_pos g (getFeedback w g) p.1 hmem)
      rw [minRequired_apply]
      simp only [decide_eq_true_eq, countLetterInWord]
      exact_mod_cast this
    · rw [if_neg hgray]
  rw [matchesFeedback]
  simp [h1, h2, h3, h4]

/-- Claim C2, counterexample.  The count-based test `matchesFeedback` is
not equivalent to oracle equality on every feedback value: for the word
`BABBB` and the entry `("AAZZZ", [YELLOW, GRAY, GRAY, GRAY, GRAY])` the
count-based test accepts, yet the oracle yields
`[GRAY, GREEN, GRAY, GRAY, GRAY] ≠ [YELLOW, GRAY, GRAY, GRAY, GRAY]`. -/
theorem claim_C2_counterexample :
    matchesFeedback "BABBB".toList
      ⟨"AAZZZ".toList,
       [LetterColor.yellow, LetterColor.gray, LetterColor.gray,
        LetterColor.gray, LetterColor.gray]⟩ = true ∧
    getFeedback "BABBB".toList "AAZZZ".toList ≠
      [LetterColor.yellow, LetterColor.gray, LetterColor.gray,
       LetterColor.gray, LetterColor.gray] := by decide

/-- Claim C2, amended.  The oracle-equality direction that the code
satisfies: whenever `getFeedback(w, g) = f`, the count-based test
`matchesFeedback(w, (g, f))` accepts; equivalently every word passes the
count-based filter against its own oracle feedback.  (The converse
direction fails, witnessed by `claim_C2_counterexample`, so the two
formulations agree only on feedback realizable for the guess.) -/
theorem claim_C2_filter_sound :
    ∀ (w g : Word), matchesFeedback w ⟨g, getFeedback w g⟩ = true :=
  matchesFeedback_of_oracle

/-- Claim C4 (code bug).  On the parallel strict-guesses path the scored
list is returned whole: with 2 surviving answers and 6 candidate guesses
the path returns 6 suggestions, not `min(topK, |candidateGuesses|) = 5`,
although the sequential paths and the function's own documentation
(`computes top 5 suggestions`) truncate to 5. -/
theorem claim_C4_parallel_top5_missing :
    (solveStrictParallel { history := [] }
      ["AAAAA".toList, "AAAAB".toList]
      ["AAAAA".toList, "AAAAB".toList, "CCCCC".toList,
       "DDDDD".toList, "EEEEE".toList, "FFFFF".toList]).suggestions.length = 6 ∧
    (solveStrictTop5 { history := [] }
      ["AAAAA".toList, "AAAAB".toList]
      ["AAAAA".toList, "AAAAB".toList, "CCCCC".toList,
       "DDDDD".toList, "EEEEE".toList, "FFFFF".toList]).suggestions.length = 5 ∧
    (solveAllGuesses { history := [] }
      ["AAAAA".toList, "AAAAB".toList]
      ["AAAAA".toList, "AAAAB".toList, "CCCCC".toList,
       "DDDDD".toList, "EEEEE".toList, "FFFFF".toList]).suggestions.length = 5 ∧
    ¬ (6 = min 5 6) := by decide

/-- Claim C6.  When the history is inconsistent with the whole answer
universe, every solving path returns the empty suggestion list with
`remainingAnswers = 0`, and the Go strategy additionally emits the single
empty callback and returns no error (fail-soft; the embedded functions
are total, so no exception path exists). -/
theorem claim_C6_empty_survivors (gameState : GameState) (answers guesses : List Word)
    (maxDepth : Nat) (cancelled : Bool)
    (h : filterCandidateWords gameState answers = []) :
    solveAllGuesses gameState answers guesses =
      { suggestions := [], remainingAnswers := 0 } ∧
    solveStrictTop5 gameState answers guesses =
      { suggestions := [], remainingAnswers := 0 } ∧
    solveStrictParallel gameState answers guesses =
      { suggestions := [], remainingAnswers := 0 } ∧
    goSolve gameState answers guesses maxDepth cancelled =
      ([{ suggestions := [], depth := 1, remaining := 0 }], none) := by
  refine ⟨?_, ?_, ?_, ?_⟩ <;>
    simp [solveAllGuesses, solveStrictTop5, solveStrictParallel, goSolve, h]

/-- Concrete instance of claim C6: the history `("AAAAA", all green)`
contradicts the one-word universe `{"BBBBB"}`. -/
theorem claim_C6_empty_survivors_witness :
    filterCandidateWords
      ⟨[⟨"AAAAA".toList, [LetterColor.green, LetterColor.green, LetterColor.green,
        LetterColor.green, LetterColor.green]⟩]⟩
      ["BBBBB".toList] = [] ∧
    (solveAllGuesses
      ⟨[⟨"AAAAA".toList, [LetterColor.green, LetterColor.green, LetterColor.green,
        LetterColor.green, LetterColor.green]⟩]⟩
      ["BBBBB".toList] ["AAAAA".toList] = ⟨[], 0⟩ ∧
    solveStrictTop5
      ⟨[⟨"AAAAA".toList, [LetterColor.green, LetterColor.green, LetterColor.green,
        LetterColor.green, LetterColor.green]⟩]⟩
      ["BBBBB".toList] ["AAAAA".toList] = ⟨[], 0⟩ ∧
    solveStrictParallel
      ⟨[⟨"AAAAA".toList, [LetterColor.green, LetterColor.green, LetterColor.green,
        LetterColor.green, LetterColor.green]⟩]⟩
      ["BBBBB".toList] ["AAAAA".toList] = ⟨[], 0⟩ ∧
    goSolve
      ⟨[⟨"AAAAA".toList, [LetterColor.green, LetterColor.green, LetterColor.green,
        LetterColor.green, LetterColor.green]⟩]⟩
      ["BBBBB".toList] ["AAAAA".toList] 3 false =
        ([⟨[], 1, 0⟩], none)) :=
  ⟨by decide, claim_C6_empty_survivors _ _ _ 3 false (by decide)⟩

theorem calcEntropy_eq (n : Nat) : calcEntropy n = Real.logb 2 n := by
  match n with
  | 0 => simp [calcEntropy, Real.logb_zero]
  | 1 => simp [calcEntropy, Real.logb_one]
  | (k + 2) =>
    have hk : ¬ (k + 2 ≤ 1) := by omega
    have hx : ((k + 2 : Nat) : ℝ) ≠ 0 := by positivity
    simp only [calcEntropy, hk, if_false]
    rw [one_div, Real.logb_inv]
    field_simp
    ring

theorem one_le_wBase (counts : List Nat) (h : ∀ c ∈ counts, 1 ≤ c) :
    1 ≤ wBase counts := by
  induction counts with
  | nil => simp [wBase]
  | cons c cs ih =>
    have hc : 1 ≤ c := h c (List.mem_cons_self c cs)
    have hcs : 1 ≤ wBase cs := ih fun x hx => h x (List.mem_cons_of_mem c hx)
    have hpow : 1 ≤ c ^ c := Nat.one_le_pow c c hc
    calc 1 = 1 * 1 := (one_mul 1).symm
      _ ≤ c ^ c * wBase cs := Nat.mul_le_mul hpow hcs
      _ = wBase (c :: cs) := by simp [wBase]

theorem logb_wBase (counts : List Nat) (h : ∀ c ∈ counts, 1 ≤ c) :
    Real.logb 2 (wBase counts) =
      (counts.map fun (c : Nat) => (c : ℝ) * Real.logb 2 c).sum := by
  induction counts with
  | nil => simp [wBase]
  | cons c cs ih =>
    have hc : 1 ≤ c := h c (List.mem_cons_self c cs)
    have hcs : 1 ≤ wBase cs := one_le_wBase cs fun x hx => h x (List.mem_cons_of_mem c hx)
    have hx : ((c : ℝ) ^ c) ≠ 0 := by
      have : (1 : ℝ) ≤ (c : ℝ) ^ c := by
        exact_mod_cast Nat.one_le_pow c c hc
      positivity
    have hy : ((wBase cs : ℝ)) ≠ 0 := by
      have : (1 : ℝ) ≤ (wBase cs : ℝ) := by exact_mod_cast hcs
      positivity
    have hw : wBase (c :: cs) = c ^ c * wBase cs := by simp [wBase]
    have hmul : ((wBase (c :: cs) : Nat) : ℝ) = (c : ℝ) ^ c * (wBase cs : ℝ) := by
      rw [hw]
      push_cast
      ring
    rw [hmul, Real.logb_mul hx hy, Real.logb_pow,
      ih fun x hx => h x (List.mem_cons_of_mem c hx)]
    simp only [List.map_cons, List.sum_cons]

theorem scoreOfCounts_eq (counts : List Nat) (total : Nat)
    (h : ∀ c ∈ counts, 1 ≤ c) (_ht : 0 < total) :
    scoreOfCounts counts total =
      Real.logb 2 total - Real.logb 2 (wBase counts) / total := by
  rw [scoreOfCounts, calcEntropy_eq]
  congr 1
  have hmap : (counts.map fun (c : Nat) =>
        if 0 < c then ((c : ℝ) / total) * calcEntropy c else 0) =
      counts.map fun (c : Nat) => ((c : ℝ) * Real.logb 2 c) * (1 / total) := by
    apply List.map_congr_left
    intro c hc
    have h1 : 1 ≤ c := h c hc
    rw [if_pos (by omega), calcEntropy_eq]
    ring
  rw [hmap,
    List.sum_map_mul_right counts (fun (c : Nat) => (c : ℝ) * Real.logb 2 c) (1 / total),
    ← logb_wBase counts h, mul_one_div]

theorem wBase_le_iff_score (cx cy : List Nat) (total : Nat)
    (hx : ∀ c ∈ cx, 1 ≤ c) (hy : ∀ c ∈ cy, 1 ≤ c) (ht : 0 < total) :
    (wBase cx ≤ wBase cy ↔ scoreOfCounts cy total ≤ scoreOfCounts cx total) := by
  rw [scoreOfCounts_eq cx total hx ht, scoreOfCounts_eq cy total hy ht,
    sub_le_sub_iff_left, div_le_div_iff_of_pos_right (by exact_mod_cast ht)]
  have hx1 : (0 : ℝ) < (wBase cx : ℝ) := by
    have := one_le_wBase cx hx
    exact_mod_cast Nat.lt_of_lt_of_le Nat.zero_lt_one this
  have hy1 : (0 : ℝ) < (wBase cy : ℝ) := by
    have := one_le_wBase cy hy
    exact_mod_cast Nat.lt_of_lt_of_le Nat.zero_lt_one this
  rw [Real.logb_le_logb one_lt_two hx1 hy1]
  exact_mod_cast Iff.rfl

theorem scoreOfCounts_bounds (counts : List Nat) (total : Nat)
    (h1 : ∀ c ∈ counts, 1 ≤ c) (h2 : ∀ c ∈ counts, c ≤ total)
    (h3 : counts.sum = total) (h4 : 1 ≤ total) :
    0 ≤ scoreOfCounts counts total ∧
      scoreOfCounts counts total ≤ Real.logb 2 total := by
  have ht : 0 < total := h4
  rw [scoreOfCounts_eq counts total h1 ht]
  have htR : (0 : ℝ) < (total : ℝ) := by exact_mod_cast ht
  constructor
  · have hsum : Real.logb 2 (wBase counts) ≤ (total : ℝ) * Real.logb 2 total := by
      rw [logb_wBase counts h1]
      have hstep : (counts.map fun (c : Nat) => (c : ℝ) * Real.logb 2 c).sum ≤
          (counts.map fun (c : Nat) => (c : ℝ) * Real.logb 2 total).sum := by
        apply List.sum_le_sum
        intro c hc
        have hc1 : 1 ≤ c := h1 c hc
        have hc2 : c ≤ total := h2 c hc
        apply mul_le_mul_of_nonneg_left _ (by positivity)
        apply Real.logb_le_logb_of_le one_lt_two (by exact_mod_cast hc1)
        exact_mod_cast hc2
      refine hstep.trans ?_
      have : (counts.map fun (c : Nat) => (c : ℝ) * Real.logb 2 total).sum =
          ((counts.map fun (c : Nat) => (c : ℝ)).sum) * Real.logb 2 total :=
        List.sum_map_mul_right counts (fun (c : Nat) => (c : ℝ)) (Real.logb 2 total)
      rw [this, ← Nat.cast_list_sum, h3]
    rw [sub_nonneg]
    have hd : Real.logb 2 (wBase counts) / total ≤
        ((total : ℝ) * Real.logb 2 total) / total :=
      (div_le_div_iff_of_pos_right htR).mpr hsum
    have he : ((total : ℝ) * Real.logb 2 total) / total = Real.logb 2 total := by
      field_simp
    linarith
  · have h0 : 0 ≤ Real.logb 2 (wBase counts) := by
      apply Real.logb_nonneg one_lt_two
      exact_mod_cast one_le_wBase counts h1
    have : 0 ≤ Real.logb 2 (wBase counts) / total := by positivity
    linarith

theorem tally_pos {α : Type} [DecidableEq α] (l : List α) :
    ∀ x ∈ tally l, 1 ≤ x := by
  intro x hx
  simp only [tally] at hx
  obtain ⟨k, hk, rfl⟩ := List.mem_map.mp hx
  exact List.count_pos_iff.mpr (List.mem_dedup.mp hk)

theorem tally_le {α : Type} [DecidableEq α] (l : List α) :
    ∀ x ∈ tally l, x ≤ l.length := by
  intro x hx
  simp only [tally] at hx
  obtain ⟨k, _, rfl⟩ := List.mem_map.mp hx
  exact List.count_le_length k l

theorem tally_sum {α : Type} [DecidableEq α] (l : List α) :
    (tally l).sum = l.length := by
  have hfs : l.dedup.toFinset = l.toFinset := by
    ext x
    simp
  rw [tally, ← List.sum_toFinset _ (List.nodup_dedup l), hfs,
    List.sum_toFinset_count_eq_length]

theorem bucketCounts_pos (g : Word) (as : List Word) :
    ∀ x ∈ bucketCounts g as, 1 ≤ x :=
  tally_pos _

theorem bucketCounts_le (g : Word) (as : List Word) :
    ∀ x ∈ bucketCounts g as, x ≤ as.length := by
  intro x hx
  have := tally_le (as.map fun a => feedbackKey (getFeedback a g)) x hx
  rwa [List.length_map] at this

theorem bucketCounts_sum (g : Word) (as : List Word) :
    (bucketCounts g as).sum = as.length := by
  rw [bucketCounts, tally_sum]
  exact List.length_map _ _

theorem rankGuesses_mem (guesses answers : List Word) :
    ∀ p ∈ rankGuesses guesses answers,
      ∃ g, g ∈ guesses ∧
        p = (g, ScoreVal.gain (bucketCounts g answers) answers.length) := by
  intro p hp
  simp only [rankGuesses] at hp
  obtain ⟨q, hq, rfl⟩ := List.mem_map.mp hp
  have hq2 : q ∈ guesses.map fun g => (g, bucketCounts g answers) :=
    ((List.perm_insertionSort scoredLe _).mem_iff).mp hq
  obtain ⟨g, hg, rfl⟩ := List.mem_map.mp hq2
  exact ⟨g, hg, rfl⟩

theorem rankGuesses_sorted (guesses answers : List Word) (h : 0 < answers.length) :
    List.Pairwise
      (fun x y : Word × ScoreVal => ScoreVal.toReal y.2 ≤ ScoreVal.toReal x.2)
      (rankGuesses guesses answers) := by
  simp only [rankGuesses]
  rw [List.pairwise_map]
  have hs : List.Pairwise scoredLe
      (List.insertionSort scoredLe (guesses.map fun g => (g, bucketCounts g answers))) :=
    List.sorted_insertionSort scoredLe _
  refine hs.imp_of_mem ?_
  intro a b ha hb hab
  have hmem : ∀ q ∈ List.insertionSort scoredLe
      (guesses.map fun g => (g, bucketCounts g answers)),
      q.2 = bucketCounts q.1 answers := by
    intro q hq
    have hq2 : q ∈ guesses.map fun g => (g, bucketCounts g answers) :=
      ((List.perm_insertionSort scoredLe _).mem_iff).mp hq
    obtain ⟨g, _, rfl⟩ := List.mem_map.mp hq2
    rfl
  simp only [ScoreVal.toReal]
  refine (wBase_le_iff_score a.2 b.2 answers.length ?_ ?_ h).mp hab
  · rw [hmem a ha]
    exact bucketCounts_pos a.1 answers
  · rw [hmem b hb]
    exact bucketCounts_pos b.1 answers

/-- Claim C3, counterexample.  With answers `{AAAAA, AAAAB}` and the
candidate guesses given in the order `[CCCCB, ABBBB]`, both guesses split
the answers into two singleton buckets, so their scores are equal; the
returned list keeps them in candidate order `CCCCB, ABBBB`, which is
descending, not ascending, lexicographic order.  The same score-only
comparator is used by the Go scorer (`sort.Slice`, unstable). -/
theorem claim_C3_counterexample :
    (solveAllGuesses ⟨[]⟩ ["AAAAA".toList, "AAAAB".toList]
      ["CCCCB".toList, "ABBBB".toList]).suggestions =
      [("CCCCB".toList, ScoreVal.gain [1, 1] 2),
       ("ABBBB".toList, ScoreVal.gain [1, 1] 2)] ∧
    ScoreVal.toReal (ScoreVal.gain [1, 1] 2) =
      ScoreVal.toReal (ScoreVal.gain [1, 1] 2) ∧
    List.Lex (fun a b : Char => a < b) "ABBBB".toList "CCCCB".toList :=
  ⟨by decide, rfl, List.Lex.rel (by decide)⟩

/-- Claim C3, amended.  On every path the returned suggestion list is
sorted by score descending; no lexicographic tie-break is applied (ties
keep the stable candidate-list order in the TS scorer, and are in
unspecified order under Go's unstable `sort.Slice`). -/
theorem claim_C3_sorted_desc (gameState : GameState) (answers guesses : List Word) :
    List.Pairwise
      (fun x y : Word × ScoreVal => ScoreVal.toReal y.2 ≤ ScoreVal.toReal x.2)
      (solveAllGuesses gameState answers guesses).suggestions ∧
    List.Pairwise
      (fun x y : Word × ScoreVal => ScoreVal.toReal y.2 ≤ ScoreVal.toReal x.2)
      (solveStrictTop5 gameState answers guesses).suggestions ∧
    List.Pairwise
      (fun x y : Word × ScoreVal => ScoreVal.toReal y.2 ≤ ScoreVal.toReal x.2)
      (solveStrictParallel gameState answers guesses).suggestions := by
  refine ⟨?_, ?_, ?_⟩
  · simp only [solveAllGuesses]
    split_ifs with h0 h1
    · simp
    · simp
    · have hpos : 0 < (filterCandidateWords gameState answers).length := by omega
      exact List.Pairwise.sublist (List.take_sublist 5 _)
        (rankGuesses_sorted guesses _ hpos)
  · simp only [solveStrictTop5]
    split_ifs with h0 h1 h2
    · simp
    · simp
    · simp
    · have hpos : 0 < (filterCandidateWords gameState answers).length := by omega
      exact List.Pairwise.sublist (List.take_sublist 5 _)
        (rankGuesses_sorted _ _ hpos)
  · simp only [solveStrictParallel]
    split_ifs with h0 h1 h2
    · simp
    · simp
    · simp
    · have hpos : 0 < (filterCandidateWords gameState answers).length := by omega
      exact rankGuesses_sorted _ _ hpos

/-- Claim C5.  A returned score is the sentinel (the largest finite
double) exactly when a single answer survives and the suggestion is that
answer, in which case the engine returns the single sentinel suggestion
with `remainingAnswers = 1` without scoring; every other returned score
lies in `[0, log2 N]`.  The bound `N ≤ 2^53` holds for any word list a
double-indexed array can address and separates every gain from the
sentinel. -/
theorem claim_C5_score_range (gameState : GameState) (answers guesses : List Word)
    (hN : (filterCandidateWords gameState answers).length ≤ 2 ^ 53) :
    ((filterCandidateWords gameState answers).length = 1 →
      solveAllGuesses gameState answers guesses =
        ⟨[((filterCandidateWords gameState answers).headI, ScoreVal.sentinel)], 1⟩) ∧
    ∀ p ∈ (solveAllGuesses gameState answers guesses).suggestions,
      (ScoreVal.toReal p.2 = maxFloat ↔
        (filterCandidateWords gameState answers).length = 1 ∧
        p.1 = (filterCandidateWords gameState answers).headI) ∧
      ((filterCandidateWords gameState answers).length ≠ 1 →
        0 ≤ ScoreVal.toReal p.2 ∧
        ScoreVal.toReal p.2 ≤
          Real.logb 2 (filterCandidateWords gameState answers).length) := by
  by_cases h1 : (filterCandidateWords gameState answers).length = 1
  · have hsolve : solveAllGuesses gameState answers guesses =
        ⟨[((filterCandidateWords gameState answers).headI, ScoreVal.sentinel)], 1⟩ := by
      simp [solveAllGuesses, h1]
    refine ⟨fun _ => hsolve, ?_⟩
    intro p hp
    rw [hsolve] at hp
    have hp2 : p = ((filterCandidateWords gameState answers).headI, ScoreVal.sentinel) :=
      List.mem_singleton.mp hp
    subst hp2
    refine ⟨?_, fun hne => absurd h1 hne⟩
    simp [ScoreVal.toReal, h1]
  · by_cases h0 : (filterCandidateWords gameState answers).length = 0
    · have hsolve : solveAllGuesses gameState answers guesses = ⟨[], 0⟩ := by
        simp [solveAllGuesses, h0]
      refine ⟨fun hh => absurd hh h1, ?_⟩
      intro p hp
      rw [hsolve] at hp
      exact absurd hp (List.not_mem_nil p)
    · have hlen1 : 1 ≤ (filterCandidateWords gameState answers).length := by omega
      have hsolve : solveAllGuesses gameState answers guesses =
          ⟨(rankGuesses guesses (filterCandidateWords gameState answers)).take 5,
            (filterCandidateWords gameState answers).length⟩ := by
        simp [solveAllGuesses, h0, h1]
      refine ⟨fun hh => absurd hh h1, ?_⟩
      intro p hp
      rw [hsolve] at hp
      have hp2 := List.mem_of_mem_take hp
      obtain ⟨g, _, rfl⟩ :=
        rankGuesses_mem guesses (filterCandidateWords gameState answers) _ hp2
      have hbounds := scoreOfCounts_bounds
        (bucketCounts g (filterCandidateWords gameState answers))
        (filterCandidateWords gameState answers).length
        (bucketCounts_pos g _) (bucketCounts_le g _) (bucketCounts_sum g _) hlen1
      have h53 : Real.logb 2 (filterCandidateWords gameState answers).length ≤ 53 := by
        have hcast : ((filterCandidateWords gameState answers).length : ℝ) ≤
            ((2 ^ 53 : Nat) : ℝ) := by exact_mod_cast hN
        have hle := Real.logb_le_logb_of_le one_lt_two
          (by exact_mod_cast hlen1 : (0 : ℝ) < (filterCandidateWords gameState answers).length)
          hcast
        have h2 : ((2 ^ 53 : Nat) : ℝ) = (2 : ℝ) ^ 53 := by norm_num
        rw [h2, Real.logb_pow, Real.logb_self_eq_one one_lt_two] at hle
        simpa using hle
      have hmax : (53 : ℝ) < maxFloat := by
        have ha : (54 : ℝ) ≤ (2 : ℝ) ^ 53 - 1 := by norm_num
        have hb : (1 : ℝ) ≤ (2 : ℝ) ^ 971 := one_le_pow₀ (by norm_num)
        have : (54 : ℝ) * 1 ≤ ((2 : ℝ) ^ 53 - 1) * 2 ^ 971 :=
          mul_le_mul ha hb (by norm_num) (by linarith)
        rw [maxFloat]
        linarith
      constructor
      · simp only [ScoreVal.toReal]
        constructor
        · intro heq
          exfalso
          have := hbounds.2
          linarith
        · intro hc
          exact absurd hc.1 h1
      · intro _
        simpa [ScoreVal.toReal] using hbounds

/-- Concrete instance of claim C5: a single surviving answer forces the
sentinel suggestion. -/
theorem claim_C5_score_range_witness :
    (filterCandidateWords ⟨[]⟩ ["AAAAA".toList]).length ≤ 2 ^ 53 ∧
    solveAllGuesses ⟨[]⟩ ["AAAAA".toList] ["ZZZZZ".toList] =
      ⟨[("AAAAA".toList, ScoreVal.sentinel)], 1⟩ :=
  ⟨by decide,
    (claim_C5_score_range ⟨[]⟩ ["AAAAA".toList] ["ZZZZZ".toList] (by decide)).1 (by decide)⟩

/-- Claim C7.  Histories that are permutations of each other filter the
same surviving set (as identical lists) and give every candidate guess
the same score. -/
theorem claim_C7_history_perm (wordList : List Word) (h1 h2 : List GuessEntry)
    (g : Word) (hperm : h1.Perm h2) :
    filterCandidateWords ⟨h1⟩ wordList = filterCandidateWords ⟨h2⟩ wordList ∧
    igScore g (filterCandidateWords ⟨h1⟩ wordList) =
      igScore g (filterCandidateWords ⟨h2⟩ wordList) := by
  have hfilter : filterCandidateWords ⟨h1⟩ wordList =
      filterCandidateWords ⟨h2⟩ wordList := by
    rw [filterCandidateWords, filterCandidateWords]
    apply List.filter_congr
    intro w _
    simp only [matchesGameState]
    rw [Bool.eq_iff_iff, List.all_eq_true, List.all_eq_true]
    constructor
    · intro hall e he
      exact hall e (hperm.mem_iff.mpr he)
    · intro hall e he
      exact hall e (hperm.mem_iff.mp he)
  exact ⟨hfilter, by rw [hfilter]⟩

/-- Concrete instance of claim C7 on a two-entry history and its
transposition. -/
theorem claim_C7_history_perm_witness :
    List.Perm
      [(⟨"SLATE".toList, [LetterColor.green, LetterColor.gray, LetterColor.yellow,
          LetterColor.gray, LetterColor.gray]⟩ : GuessEntry),
       ⟨"CRANE".toList, [LetterColor.gray, LetterColor.yellow, LetterColor.green,
          LetterColor.gray, LetterColor.gray]⟩]
      [(⟨"CRANE".toList, [LetterColor.gray, LetterColor.yellow, LetterColor.green,
          LetterColor.gray, LetterColor.gray]⟩ : GuessEntry),
       ⟨"SLATE".toList, [LetterColor.green, LetterColor.gray, LetterColor.yellow,
          LetterColor.gray, LetterColor.gray]⟩] ∧
    (filterCandidateWords
      ⟨[⟨"SLATE".toList, [LetterColor.green, LetterColor.gray, LetterColor.yellow,
          LetterColor.gray, LetterColor.gray]⟩,
        ⟨"CRANE".toList, [LetterColor.gray, LetterColor.yellow, LetterColor.green,
          LetterColor.gray, LetterColor.gray]⟩]⟩
      ["STARE".toList, "SHARD".toList, "CRANE".toList] =
    filterCandidateWords
      ⟨[⟨"CRANE".toList, [LetterColor.gray, LetterColor.yellow, LetterColor.green,
          LetterColor.gray, LetterColor.gray]⟩,
        ⟨"SLATE".toList, [LetterColor.green, LetterColor.gray, LetterColor.yellow,
          LetterColor.gray, LetterColor.gray]⟩]⟩
      ["STARE".toList, "SHARD".toList, "CRANE".toList] ∧
    igScore "STARE".toList
      (filterCandidateWords
        ⟨[⟨"SLATE".toList, [LetterColor.green, LetterColor.gray, LetterColor.yellow,
            LetterColor.gray, LetterColor.gray]⟩,
          ⟨"CRANE".toList, [LetterColor.gray, LetterColor.yellow, LetterColor.green,
            LetterColor.gray, LetterColor.gray]⟩]⟩
        ["STARE".toList, "SHARD".toList, "CRANE".toList]) =
    igScore "STARE".toList
      (filterCandidateWords
        ⟨[⟨"CRANE".toList, [LetterColor.gray, LetterColor.yellow, LetterColor.green,
            LetterColor.gray, LetterColor.gray]⟩,
          ⟨"SLATE".toList, [LetterColor.green, LetterColor.gray, LetterColor.yellow,
            LetterColor.gray, LetterColor.gray]⟩]⟩
        ["STARE".toList, "SHARD".toList, "CRANE".toList])) :=
  ⟨by decide,
    claim_C7_history_perm ["STARE".toList, "SHARD".toList, "CRANE".toList]
      _ _ "STARE".toList (by decide)⟩

/-- Claim C8, counterexample.  A cancelled request still terminates with
one `stream-completed` sentinel, but its status is the literal
`"completed"`, never `"cancelled"`: the handler writes the same
completion object on both paths. -/
theorem claim_C8_counterexample :
    (suggestStreamEvents "rid-1" [] true).countP isStreamCompleted = 1 ∧
    (suggestStreamEvents "rid-1" [] true).getLast? =
      some (SSEEvent.streamCompleted "rid-1" "completed") ∧
    ("completed" : String) ≠ "cancelled" := by decide

/-- Claim C8, amended.  Every suggest stream terminates with exactly one
`stream-completed` sentinel, and its status field is always
`"completed"`, whether or not the request was cancelled (cancellation is
not distinguished in the sentinel). -/
theorem claim_C8_sentinel_once (streamId : String)
    (batches : List (List (Word × ScoreVal) × Nat × Nat)) (cancelled : Bool) :
    (suggestStreamEvents streamId batches cancelled).countP isStreamCompleted = 1 ∧
    (suggestStreamEvents streamId batches cancelled).countP
      (fun e => isStreamCompleted e && ! completedWithStatus "completed" e) = 0 := by
  constructor
  · rw [suggestStreamEvents, List.countP_append, List.countP_append]
    have h2 : (batches.map fun b =>
        SSEEvent.suggestions streamId b.1 b.2.1 b.2.2).countP isStreamCompleted = 0 := by
      rw [List.countP_eq_zero]
      intro e he
      obtain ⟨b, _, rfl⟩ := List.mem_map.mp he
      simp [isStreamCompleted]
    rw [h2]
    cases cancelled <;> rfl
  · rw [List.countP_eq_zero]
    intro e he
    rw [suggestStreamEvents] at he
    simp only [List.mem_append, List.mem_singleton, List.mem_map] at he
    rcases he with (rfl | ⟨b, _, rfl⟩) | rfl
    · simp [isStreamCompleted]
    · simp [isStreamCompleted]
    · cases cancelled <;> simp [isStreamCompleted, completedWithStatus]

/-- Claim C9, counterexample.  Constructing a Word from the 4-letter
input `"STAR"` does not return an `InvalidWord` error value to the
caller: `StringToWord` panics (aborting the construction), and the panic
propagates out of `GuessEntry.UnmarshalJSON` as well, exactly as the
repository's own test `TestWordConversionPanic` expects. -/
theorem claim_C9_counterexample :
    StringToWord "STAR" =
      Except.error ⟨"Word must be exactly 5 characters, got 4"⟩ ∧
    isPanic (StringToWord "STAR") = true ∧
    isPanic (unmarshalGuessEntry "STAR" []) = true :=
  ⟨rfl, rfl, rfl⟩

/-- Claim C9, amended.  Constructing a Word from input whose normalized
length is not exactly 5 panics with the message
`Word must be exactly 5 characters, got N` instead of returning an
`InvalidWord` error; the panic propagates through
`GuessEntry.UnmarshalJSON`.  Only the affected construction aborts; the
embedding is per-call. -/
theorem claim_C9_panic (s : String) (fb : List LetterColor)
    (h : s.toList.length ≠ 5) :
    StringToWord s =
      Except.error
        ⟨"Word must be exactly 5 characters, got " ++ toString s.toList.length⟩ ∧
    unmarshalGuessEntry s fb =
      Except.error
        ⟨"Word must be exactly 5 characters, got " ++ toString s.toList.length⟩ := by
  have hlen : (s.toList.map upperChar).length = s.toList.length :=
    List.length_map _ _
  have h1 : StringToWord s =
      Except.error
        ⟨"Word must be exactly 5 characters, got " ++ toString s.toList.length⟩ := by
    rw [StringToWord]
    simp only [hlen]
    rw [if_pos h]
  exact ⟨h1, by rw [unmarshalGuessEntry, h1]⟩

/-- Concrete instance of claim C9 at the test input `"STAR"`. -/
theorem claim_C9_panic_witness :
    "STAR".toList.length ≠ 5 ∧
    (StringToWord "STAR" =
      Except.error
        ⟨"Word must be exactly 5 characters, got " ++
          toString "STAR".toList.length⟩ ∧
    unmarshalGuessEntry "STAR" [] =
      Except.error
        ⟨"Word must be exactly 5 characters, got " ++
          toString "STAR".toList.length⟩) :=
  ⟨by decide, claim_C9_panic "STAR" [] (by decide)⟩

theorem colorChar_injective : Function.Injective colorChar := by
  intro a b h
  cases a <;> cases b <;> first | rfl | (revert h; decide)

theorem feedbackKey_injective : Function.Injective feedbackKey :=
  List.map_injective_iff.mpr colorChar_injective

theorem feedbackKeyTS_injective :
    ∀ (f1 f2 : List LetterColor), feedbackKeyTS f1 = feedbackKeyTS f2 → f1 = f2 := by
  intro f1
  induction f1 with
  | nil =>
    intro f2 h
    cases f2 with
    | nil => rfl
    | cons c2 r2 =>
      exfalso
      cases c2 <;> simp [feedbackKeyTS, colorName] at h
  | cons c1 r1 ih =>
    intro f2 h
    cases f2 with
    | nil =>
      exfalso
      cases c1 <;> simp [feedbackKeyTS, colorName] at h
    | cons c2 r2 =>
      simp only [feedbackKeyTS, List.map_cons, List.flatten_cons] at h
      cases c1 <;> cases c2 <;>
        simp only [colorName, List.cons_append, List.nil_append, List.cons.injEq,
          eq_self_iff_true, true_and] at h <;>
        first
          | exact congrArg (List.cons _) (ih r2 h)
          | exact absurd h.1 (by decide)

theorem feedbackBase3_injective :
    ∀ (f1 f2 : List LetterColor), f1.length = f2.length →
      feedbackBase3 f1 = feedbackBase3 f2 → f1 = f2 := by
  intro f1
  induction f1 with
  | nil =>
    intro f2 hlen _
    cases f2 with
    | nil => rfl
    | cons c2 r2 => simp at hlen
  | cons c1 r1 ih =>
    intro f2 hlen h
    cases f2 with
    | nil => simp at hlen
    | cons c2 r2 =>
      have hlen2 : r1.length = r2.length := by simpa using hlen
      simp only [feedbackBase3] at h
      have b1 : colorCode c1 < 3 := by cases c1 <;> simp [colorCode]
      have b2 : colorCode c2 < 3 := by cases c2 <;> simp [colorCode]
      have hsplit : colorCode c1 = colorCode c2 ∧
          feedbackBase3 r1 = feedbackBase3 r2 := by omega
      have hcc : c1 = c2 := by
        have := hsplit.1
        cases c1 <;> cases c2 <;> simp_all [colorCode]
      rw [hcc, ih r2 hlen2 hsplit.2]

theorem dedup_map_of_injective {α β : Type} [DecidableEq α] [DecidableEq β]
    {f : α → β} (hf : Function.Injective f) :
    ∀ l : List α, (l.map f).dedup = l.dedup.map f := by
  intro l
  induction l with
  | nil => simp
  | cons a t ih =>
    by_cases hmem : a ∈ t
    · rw [List.map_cons, List.dedup_cons_of_mem, List.dedup_cons_of_mem hmem, ih]
      exact (List.mem_map_of_injective hf).mpr hmem
    · rw [List.map_cons, List.dedup_cons_of_not_mem, List.dedup_cons_of_not_mem hmem,
        List.map_cons, ih]
      intro hc
      exact hmem ((List.mem_map_of_injective hf).mp hc)

theorem tally_map_of_injective {α β : Type} [DecidableEq α] [DecidableEq β]
    {f : α → β} (hf : Function.Injective f) (l : List α) :
    tally (l.map f) = tally l := by
  rw [tally, tally, dedup_map_of_injective hf, List.map_map]
  apply List.map_congr_left
  intro x _
  simp only [Function.comp]
  exact List.count_map_of_injective l f hf x

theorem bucketCounts_eq_feedback_tally (g : Word) (as : List Word) :
    bucketCounts g as = tally (as.map fun a => getFeedback a g) := by
  rw [bucketCounts]
  have hmm : (as.map fun a => feedbackKey (getFeedback a g)) =
      (as.map fun a => getFeedback a g).map feedbackKey := by
    rw [List.map_map]
    rfl
  rw [hmm, tally_map_of_injective feedbackKey_injective]

/-- Claim C10.  The string bucket keys are injective on feedback values:
the Go one-character-per-color key and the TS joined color names both
identify keys exactly when the feedback patterns are equal, and the
spec's base-3 packing does so on equal-length patterns; consequently the
bucket sizes computed over string keys coincide with the bucket sizes of
the partition by feedback equality. -/
theorem claim_C10_bucket_keys :
    (∀ f1 f2 : List LetterColor, feedbackKey f1 = feedbackKey f2 ↔ f1 = f2) ∧
    (∀ f1 f2 : List LetterColor, feedbackKeyTS f1 = feedbackKeyTS f2 ↔ f1 = f2) ∧
    (∀ f1 f2 : List LetterColor, f1.length = f2.length →
      (feedbackBase3 f1 = feedbackBase3 f2 ↔ f1 = f2)) ∧
    (∀ (g : Word) (as : List Word),
      bucketCounts g as = tally (as.map fun a => getFeedback a g)) := by
  refine ⟨?_, ?_, ?_, bucketCounts_eq_feedback_tally⟩
  · intro f1 f2
    exact ⟨fun h => feedbackKey_injective h, fun h => by rw [h]⟩
  · intro f1 f2
    exact ⟨fun h => feedbackKeyTS_injective f1 f2 h, fun h => by rw [h]⟩
  · intro f1 f2 hlen
    exact ⟨fun h => feedbackBase3_injective f1 f2 hlen h, fun h => by rw [h]⟩

/-- Concrete instance of claim C10 (base-3 clause at equal-length inputs,
and the bucket sizes of a concrete scorer partition). -/
theorem claim_C10_bucket_keys_witness :
    [LetterColor.green, LetterColor.gray].length =
      [LetterColor.gray, LetterColor.green].length ∧
    ((feedbackBase3 [LetterColor.green, LetterColor.gray] =
        feedbackBase3 [LetterColor.gray, LetterColor.green] ↔
      [LetterColor.green, LetterColor.gray] =
        [LetterColor.gray, LetterColor.green]) ∧
    bucketCounts "ABBBB".toList ["AAAAA".toList, "AAAAB".toList] =
      tally (["AAAAA".toList, "AAAAB".toList].map
        fun a => getFeedback a "ABBBB".toList)) :=
  ⟨by decide,
    claim_C10_bucket_keys.2.2.1 _ _ (by decide),
    claim_C10_bucket_keys.2.2.2 _ _⟩

end Wordle
